import Mathlib

/-!
Verification development for `crumbler.py` (markdown-crumbler), a static-site
generator that converts a markdown tree to html and synthesizes breadcrumb
navigation.  The program runs on a POSIX host, so `os.path.sep` is `/` and the
`os.path` functions are those of `posixpath`; the definitions below embed both
the program's own functions (`slash_trim`, `Breadcrumb._get_crumb`,
`get_breadcrumbs`, `get_url_path`, `DocFragment.fix_links`,
`DocFragment.fix_imgs`) and the exact fragments of `posixpath`
(`join`, `basename`, `abspath`, `relpath`) that they call.

The filesystem is modelled as the list of existing entries, each entry given as
the component list of its normalized absolute path; `os.path.exists` resolves
its (possibly relative) argument against the process working directory `cwd`,
so it is modelled as membership of the argument's normalized absolute
component list (symlink-free, as a real directory tree).
-/

/-- Splits a character list at every occurrence of `sep`, keeping empty pieces:
the semantics of Python's `str.split(sep)` for a one-character separator
(so `chSplit sep [] = [[]]`). -/
def chSplit (sep : Char) : List Char → List (List Char)
  | [] => [[]]
  | c :: cs =>
    match chSplit sep cs with
    | [] => [[]]
    | h :: t => if c = sep then [] :: h :: t else (c :: h) :: t

/-- Python `s.split('/')` on strings. -/
def pySplit (s : String) (sep : Char) : List String :=
  (chSplit sep s.data).map (fun l => ⟨l⟩)

/-- The nonempty pieces of a character list split at `/`. -/
def dcomps (l : List Char) : List String :=
  ((chSplit '/' l).map (fun p => (⟨p⟩ : String))).filter (fun c => c ≠ "")

/-- The components of a path string: `[x for x in s.split('/') if x]`,
exactly the list comprehension used by `posixpath.relpath`. -/
def pcomps (s : String) : List String :=
  dcomps s.data

/-- Python `s.startswith(p)` (also `re.match('^/', s)` for `p = "/"`). -/
def pyStartsWith (s p : String) : Bool := p.data.isPrefixOf s.data

/-- Python `s.endswith(p)`. -/
def pyEndsWith (s p : String) : Bool := p.data.isSuffixOf s.data

/-- `posixpath.join` for two arguments: if `b` is absolute it replaces `a`;
otherwise it is appended, inserting `/` unless `a` is empty or already ends
with `/`. -/
def joinPath (a b : String) : String :=
  if pyStartsWith b "/" then b
  else if a = "" ∨ pyEndsWith a "/" then a ++ b
  else a ++ "/" ++ b

/-- `posixpath.join(*parts)` for a list of arguments, as the left fold of the
two-argument join over the first element (Python requires at least one
argument; the program only calls it with a nonempty slice, and we return `""`
for the empty list). -/
def joinStar : List String → String
  | [] => ""
  | h :: t => t.foldl joinPath h

/-- `slash_trim` from `crumbler.py`:
`re.sub('^\\/|\\/$', '', s)` removes one leading and one trailing `/`. -/
def slash_trim (s : String) : String :=
  let s1 := if pyStartsWith s "/" then s.drop 1 else s
  if pyEndsWith s1 "/" then s1.dropRight 1 else s1

/-- `posixpath.basename`: everything after the last `/` (the last piece of
`s.split('/')`). -/
def pybasename (p : String) : String :=
  ⟨(chSplit '/' p.data).getLastD []⟩

/-- One step of absolute-path normalization over components, as performed by
`posixpath.normpath` on an absolute path: empty and `.` components are
dropped, `..` removes the previous component (and is dropped at the root),
anything else is appended. -/
def normStep (acc : List String) (c : String) : List String :=
  if c = "" ∨ c = "." then acc
  else if c = ".." then acc.dropLast
  else acc ++ [c]

/-- Absolute-path normalization of a component list (`posixpath.normpath`
restricted to absolute paths, on components). -/
def normAbsComps (cs : List String) : List String :=
  cs.foldl normStep []

/-- The component list of `posixpath.abspath(p)` for a process whose working
directory is `cwd` (an absolute path, as `os.getcwd()` guarantees): `p` if it
is absolute, otherwise `join(cwd, p)`, normalized. -/
def absComps (cwd p : String) : List String :=
  normAbsComps (if pyStartsWith p "/" then pcomps p else pcomps cwd ++ pcomps p)

/-- Joins components with `/` : `'/'.join(cs)`. -/
def joinComps : List String → String
  | [] => ""
  | c :: cs => cs.foldl (fun a x => a ++ "/" ++ x) c

/-- `posixpath.abspath` as a string: the normalized absolute path is `/`
followed by its components joined with `/`. -/
def abspathStr (cwd p : String) : String :=
  "/" ++ joinComps (absComps cwd p)

/-- Length of the longest common prefix of two lists
(`len(os.path.commonprefix([a, b]))` for component lists). -/
def commonPrefixLen : List String → List String → Nat
  | a :: as_, b :: bs => if a = b then commonPrefixLen as_ bs + 1 else 0
  | _, _ => 0

/-- `posixpath.relpath(path, start)` (with working directory `cwd`): both
arguments are made absolute, split into nonempty components, and the result
is `..` for every component of `start` past the common prefix followed by the
remaining components of `path`; `.` when that list is empty.  `posixpath`
raises `ValueError` when `path` is the empty string — that guard is modelled
separately in `relpath_checked`; every call site below passes a nonempty
`path`. -/
def relpath (cwd path start : String) : String :=
  let start_list := absComps cwd start
  let path_list := absComps cwd path
  let i := commonPrefixLen start_list path_list
  let rel_list := List.replicate (start_list.length - i) ".." ++ path_list.drop i
  if rel_list = [] then "." else joinStar rel_list

/-- `posixpath.relpath` including its `ValueError` guard on an empty `path`
argument. -/
def relpath_checked (cwd path start : String) : Except String String :=
  if path = "" then Except.error "no path specified"
  else Except.ok (relpath cwd path start)

/-- Python `link.replace('file:///', '')`: removes every (non-overlapping,
left-to-right) occurrence of `file:///`. -/
def stripFileUri : List Char → List Char
  | 'f' :: 'i' :: 'l' :: 'e' :: ':' :: '/' :: '/' :: '/' :: rest => stripFileUri rest
  | c :: cs => c :: stripFileUri cs
  | [] => []

/-- Python `url.replace('\\', '/')`: a single-character replace is a
character-wise map. -/
def backslashToSlash (s : String) : String :=
  ⟨s.data.map (fun c => if c = '\\' then '/' else c)⟩

/-- `get_url_path(link, path, root, webroot)` from `crumbler.py`, with the
working directory `cwd` made explicit:
strips `file:///`, resolves the link against the document path, re-expresses
it relative to the site root, prefixes the web root, normalizes separators to
`/` and guarantees a leading `/`. -/
def get_url_path (cwd link path root webroot : String) : String :=
  let link : String := ⟨stripFileUri link.data⟩
  let link_path := abspathStr cwd (joinPath path link)
  let root_path := abspathStr cwd root
  let url := relpath cwd link_path root_path
  let url := joinPath webroot url
  let url := backslashToSlash url
  if pyStartsWith url "/" then url else "/" ++ url

/-- `get_url_path` with the only raising operation it contains
(`posixpath.relpath` on an empty path) modelled by `relpath_checked`. -/
def get_url_path_checked (cwd link path root webroot : String) :
    Except String String :=
  let link : String := ⟨stripFileUri link.data⟩
  let link_path := abspathStr cwd (joinPath path link)
  let root_path := abspathStr cwd root
  match relpath_checked cwd link_path root_path with
  | Except.error e => Except.error e
  | Except.ok url =>
    let url := joinPath webroot url
    let url := backslashToSlash url
    Except.ok (if pyStartsWith url "/" then url else "/" ++ url)

/-- A well-formed path component: nonempty, not `.` or `..`, and without a
separator.  `normAbsComps` only ever outputs such components. -/
def CleanComp (c : String) : Prop :=
  c ≠ "" ∧ c ≠ "." ∧ c ≠ ".." ∧ '/' ∉ c.data

/-- Python truthiness of `link.get(attr)`: `None` and the empty string are
falsy. -/
def pyTruthyOpt : Option String → Bool
  | some s => decide (s ≠ "")
  | none => false

/-- The filesystem as the membership predicate used to model
`os.path.exists`: a path exists iff its normalized absolute component list is
an entry of the (symlink-free) tree. -/
abbrev pathExists (fs : List (List String)) (cwd p : String) : Prop :=
  absComps cwd p ∈ fs

/-- The return block that `Breadcrumb._get_crumb` repeats for each of its
three candidates: in local mode with a truthy `start`, the path relative to
`start`; in local mode without one, the string slice `crumb_path[cut:]`
(where the code uses `cut = len(root)` for the first two candidates and
`len(root) + 1` for the parent-level candidate); in web mode,
`get_url_path(crumb_path, '', root, webroot)`. -/
def formatCrumb (cwd root webroot : String) (start : Option String)
    (is_local : Bool) (cut : Nat) (crumb_path : String) : String :=
  if is_local then
    if pyTruthyOpt start then relpath cwd crumb_path (start.getD "")
    else crumb_path.drop cut
  else get_url_path cwd crumb_path "" root webroot

/-- `Breadcrumb._get_crumb(path, root, base, start, is_local, webroot)` from
`crumbler.py`: trims and joins `root` and `path`, defaults `base` to the base
name of the joined path, then checks in order `path/base.md`,
`path/index.md`, and `./relpath(path/..)/base.md`, returning the first that
exists (formatted by `formatCrumb`) or `none`. -/
def getCrumb (fs : List (List String)) (cwd : String) (path root : String)
    (base : Option String) (start : Option String) (is_local : Bool)
    (webroot : String) : Option String :=
  let root := slash_trim root
  let path := slash_trim path
  let path := joinPath root path
  let base := match base with | none => pybasename path | some b => b
  let file_base := base ++ ".md"
  let crumb_path := joinPath path file_base
  if pathExists fs cwd crumb_path then
    some (formatCrumb cwd root webroot start is_local root.length crumb_path)
  else
    let crumb_path := joinPath path "index.md"
    if pathExists fs cwd crumb_path then
      some (formatCrumb cwd root webroot start is_local root.length crumb_path)
    else
      let crumb_path :=
        joinPath (joinPath "." (relpath cwd (joinPath path "..") ".")) file_base
      if pathExists fs cwd crumb_path then
        some (formatCrumb cwd root webroot start is_local (root.length + 1) crumb_path)
      else none

/-- The Local-mode resolution of a link as seen from the start (output)
location, as performed by `_get_crumb` when a start path is given:
`os.path.relpath` of the link's location against the start directory. -/
def resolveLocalFrom (cwd start link : String) : String :=
  relpath cwd (joinPath start link) start

/-- Python `str.title()` (for the ASCII alphabet used by directory names):
an alphabetic character is uppercased after a non-alphabetic character and
lowercased otherwise. -/
def pyTitleAux : Bool → List Char → List Char
  | _, [] => []
  | prevAlpha, c :: cs =>
    (if c.isAlpha then (if prevAlpha then c.toLower else c.toUpper) else c) ::
      pyTitleAux c.isAlpha cs

/-- Python `s.title()`. -/
def pyTitle (s : String) : String := ⟨pyTitleAux false s.data⟩

/-- Python `s.replace(a, b)` for one-character patterns. -/
def pyReplaceChar (s : String) (a b : Char) : String :=
  ⟨s.data.map (fun c => if c = a then b else c)⟩

/-- One left-to-right pass of Python `str.format` specialised to the two
replacement fields of the breadcrumb template: `\x7bhref\x7d` emits the href
value, `\x7btext\x7d` emits the text value, and every other character is
copied (values are not re-scanned, as in `str.format`). -/
def fmtScan : List Char → List Char → List Char → List Char
  | '\x7b' :: 'h' :: 'r' :: 'e' :: 'f' :: '\x7d' :: rest, h, t => h ++ fmtScan rest h t
  | '\x7b' :: 't' :: 'e' :: 'x' :: 't' :: '\x7d' :: rest, h, t => t ++ fmtScan rest h t
  | c :: cs, h, t => c :: fmtScan cs h t
  | [], _, _ => []

/-- `html_template.format(href=..., text=...)` from `Breadcrumb.__init__`. -/
def fmtCrumbTemplate (tmpl href text : String) : String :=
  ⟨fmtScan tmpl.data href.data text.data⟩

/-- The `Breadcrumb` class of `crumbler.py`: the class-attribute defaults are
`path = md_file = html_file = None` and `text = html = ''`. -/
structure Breadcrumb where
  path : Option String := none
  md_file : Option String := none
  html_file : Option String := none
  text : String := ""
  html : String := ""
  deriving DecidableEq

/-- `Breadcrumb.exists(self)`: `len(self.html) > 0`. -/
def Breadcrumb.crumbExists (b : Breadcrumb) : Bool :=
  decide (0 < b.html.length)

/-- `Breadcrumb.__init__(root, path, text, html_template, start_path,
is_local, webroot)`: trims the paths, derives the base name (of the trimmed
path if nonempty, else of the trimmed root), looks up the index document via
`_get_crumb`, and on success fills the fields, deriving the html file name by
replacing the trailing `.md` with `.html` (`crumb_path[:-3] + '.html'`) and
rendering the breadcrumb template; on failure every field keeps its class
default. -/
def mkBreadcrumb (fs : List (List String)) (cwd : String)
    (root path text html_template : String) (start_path : Option String)
    (is_local : Bool) (webroot : String) : Breadcrumb :=
  let path := slash_trim path
  let root := slash_trim root
  let base := if path ≠ "" then pybasename path else pybasename root
  match getCrumb fs cwd path root (some base) start_path is_local webroot with
  | none => {}
  | some crumb_path =>
    let crumb_path := slash_trim crumb_path
    let text := if text = "" then pyTitle (pyReplaceChar base '_' ' ') else text
    let html_file := crumb_path.dropRight 3 ++ ".html"
    { path := some path, md_file := some crumb_path, html_file := some html_file,
      text := text, html := fmtCrumbTemplate html_template html_file text }

/-- `get_breadcrumbs(root, path, start_path, template, is_local, webroot)`
from `crumbler.py`: splits the trimmed target path on the separator; if the
pieces joined are nonempty, builds one `Breadcrumb` candidate per prefix
length `i = 0 .. len(parts)` (the empty path for `i = 0`), appending it to
the result only when `crumb.exists()`; otherwise returns the single root
candidate unconditionally. -/
def get_breadcrumbs (fs : List (List String)) (cwd : String)
    (root path start_path template : String) (is_local : Bool)
    (webroot : String) : List Breadcrumb :=
  let parts := pySplit (slash_trim path) '/'
  if String.join parts ≠ "" then
    (List.range (parts.length + 1)).foldl
      (fun crumbs i =>
        let crumb := mkBreadcrumb fs cwd root
          (if i = 0 then "" else joinStar (parts.take i)) "" template
          (some start_path) is_local webroot
        if crumb.crumbExists then crumbs ++ [crumb] else crumbs)
      []
  else
    [mkBreadcrumb fs cwd root "" "" template (some start_path) is_local webroot]

/-- Python `\w` for the ASCII range relevant to the rewritten links. -/
def isWordChar (c : Char) : Bool := c.isAlphanum || c = '_'

/-- `re.sub('\\.md(?:\\b|$)', '.html', s)` from `DocFragment.fix_links`:
every occurrence of `.md` that is followed by a word boundary (a non-word
character or the end of the string) is replaced by `.html`, scanning left to
right without rescanning replacements. -/
def mdSubAux : List Char → List Char
  | '.' :: 'm' :: 'd' :: [] => ['.', 'h', 't', 'm', 'l']
  | '.' :: 'm' :: 'd' :: c :: rest2 =>
    if isWordChar c then '.' :: 'm' :: 'd' :: c :: mdSubAux rest2
    else '.' :: 'h' :: 't' :: 'm' :: 'l' :: mdSubAux (c :: rest2)
  | c :: rest => c :: mdSubAux rest
  | [] => []

/-- The `.md` to `.html` rewrite on strings. -/
def mdSub (s : String) : String := ⟨mdSubAux s.data⟩

/-- Scanner for the regex `\x7b.*\x7d` anchored at the start (after the
opening brace): `.` matches anything but a newline, so the regex matches iff
a closing brace occurs before any newline. -/
def braceScan : List Char → Bool
  | [] => false
  | c :: cs => if c = '\x7d' then true else if c = '\n' then false else braceScan cs

/-- `re.match('\x7b.*\x7d', href)` as a Bool: the anchored match succeeds iff
the string starts with an opening brace and a closing brace follows before
any newline. -/
def braceMatch (s : String) : Bool :=
  match s.data with
  | '\x7b' :: rest => braceScan rest
  | _ => false

/-- An anchor element as seen by `fix_links`: its `href` attribute and its
`xlink:href` attribute, each possibly absent. -/
structure Anchor where
  href : Option String
  xlink : Option String
  deriving DecidableEq

/-- The body of the `for link in self.soup.select('a')` loop of
`DocFragment.fix_links`, acting on one anchor with the current value of the
`is_xlink` flag (`st`), and returning the updated anchor and flag.  Reading
a falsy `href` falls back to `xlink:href` and sets the flag; if both
attributes are absent, `re.match` is applied to `None` and raises
`TypeError`. -/
def fixLink (is_local : Bool) (cwd path root webroot : String) (st : Bool)
    (a : Anchor) : Except String (Anchor × Bool) :=
  let href0 := if pyTruthyOpt a.href then a.href else a.xlink
  let is_xlink := if pyTruthyOpt a.href then st else true
  match href0 with
  | none => Except.error "TypeError: expected string or bytes-like object"
  | some href =>
    if braceMatch href then Except.ok (a, is_xlink)
    else
      let href := if is_local then href else get_url_path cwd href path root webroot
      let href := mdSub href
      if is_xlink then Except.ok ({ a with xlink := some href }, is_xlink)
      else Except.ok ({ a with href := some href }, is_xlink)

/-- The loop of `fix_links` over the document's anchors, threading the
`is_xlink` flag (which the code initialises once, before the loop). -/
def fixLinksAux (is_local : Bool) (cwd path root webroot : String) :
    Bool → List Anchor → Except String (List Anchor)
  | _, [] => Except.ok []
  | st, a :: rest =>
    match fixLink is_local cwd path root webroot st a with
    | Except.error e => Except.error e
    | Except.ok (a2, st2) =>
      match fixLinksAux is_local cwd path root webroot st2 rest with
      | Except.error e => Except.error e
      | Except.ok rest2 => Except.ok (a2 :: rest2)

/-- `DocFragment.fix_links` on the anchors of a parsed fragment:
`is_xlink = False` once, then the per-anchor loop. -/
def fixLinks (is_local : Bool) (cwd path root webroot : String)
    (anchors : List Anchor) : Except String (List Anchor) :=
  fixLinksAux is_local cwd path root webroot false anchors

/-- `DocFragment.fix_imgs` on the `src` attributes of the fragment's images:
in web mode each `src` is resolved through `get_url_path`; in local mode it
is written back unchanged.  No `.md` rewrite is applied. -/
def fixImgs (is_local : Bool) (cwd path root webroot : String)
    (imgs : List String) : List String :=
  imgs.map (fun src => if is_local then src else get_url_path cwd src path root webroot)

theorem mem_backslashToSlash (s : String) : ∀ c ∈ (backslashToSlash s).data, c ≠ '\\' := by
  intro c hc
  have hc' : c ∈ s.data.map (fun c => if c = '\\' then '/' else c) := hc
  rcases List.mem_map.mp hc' with ⟨a, -, rfl⟩
  by_cases h : a = '\\'
  · subst h; decide
  · simp [h]

theorem startsWith_slash_append (s : String) : pyStartsWith ("/" ++ s) "/" = true := by
  have hd : ("/" : String).data = ['/'] := by decide
  show ("/" : String).data.isPrefixOf ("/" ++ s).data = true
  rw [String.data_append, hd]
  simp [List.isPrefixOf]

theorem slashGuard_shape (u : String) (hbs : ∀ c ∈ u.data, c ≠ '\\') :
    pyStartsWith (if pyStartsWith u "/" then u else "/" ++ u) "/" = true ∧
    ∀ c ∈ (if pyStartsWith u "/" then u else "/" ++ u).data, c ≠ '\\' := by
  by_cases h : pyStartsWith u "/" = true
  · rw [if_pos h]
    exact ⟨h, hbs⟩
  · rw [if_neg (by simpa using h)]
    refine ⟨startsWith_slash_append u, ?_⟩
    intro c hc
    rw [String.data_append] at hc
    rcases List.mem_append.mp hc with h1 | h2
    · have : c = '/' := by simpa using h1
      subst this; decide
    · exact hbs c h2

/-- Claim C6: in Web addressing mode, for every link, document path, site
root and web base prefix (and any working directory), the URL returned by
`get_url_path` begins with `/` and contains no backslash character. -/
theorem get_url_path_web_shape (cwd link path root webroot : String) :
    pyStartsWith (get_url_path cwd link path root webroot) "/" = true ∧
    ∀ c ∈ (get_url_path cwd link path root webroot).data, c ≠ '\\' :=
  slashGuard_shape
    (backslashToSlash (joinPath webroot
      (relpath cwd (abspathStr cwd (joinPath path ⟨stripFileUri link.data⟩))
        (abspathStr cwd root))))
    (mem_backslashToSlash _)

theorem abspathStr_ne_empty (cwd p : String) : abspathStr cwd p ≠ "" := by
  intro h
  have h2 := congrArg String.data h
  rw [abspathStr, String.data_append] at h2
  exact List.cons_ne_nil '/' _ h2

/-- Claim C7: `get_url_path` is total and never raises: the only raising
operation in its body, `posixpath.relpath` on an empty path (modelled by
`relpath_checked`), is unreachable because the path argument is an absolute
path, so the checked variant always succeeds and agrees with the pure
function. -/
theorem get_url_path_never_raises (cwd link path root webroot : String) :
    get_url_path_checked cwd link path root webroot =
      Except.ok (get_url_path cwd link path root webroot) := by
  simp only [get_url_path_checked, get_url_path, relpath_checked]
  rw [if_neg (abspathStr_ne_empty cwd (joinPath path ⟨stripFileUri link.data⟩))]

theorem str_eq_empty_iff (s : String) : s = "" ↔ s.data = [] := by
  constructor
  · intro h; subst h; decide
  · intro h
    apply String.ext
    rw [h]

theorem chSplit_ne_nil (sep : Char) (l : List Char) : chSplit sep l ≠ [] := by
  induction l with
  | nil => simp [chSplit]
  | cons c cs ih =>
    cases h : chSplit sep cs with
    | nil => simp [chSplit, h]
    | cons h1 t1 => by_cases hc : c = sep <;> simp [chSplit, h, hc]

theorem chSplit_cons_eq (sep c : Char) (cs : List Char) :
    chSplit sep (c :: cs) =
      if c = sep then [] :: chSplit sep cs
      else (c :: (chSplit sep cs).headD []) :: (chSplit sep cs).tail := by
  cases h : chSplit sep cs with
  | nil => exact absurd h (chSplit_ne_nil _ _)
  | cons a t => by_cases hc : c = sep <;> simp [chSplit, h, hc]

theorem chSplit_append_sep (sep : Char) (l₁ l₂ : List Char) :
    chSplit sep (l₁ ++ sep :: l₂) = chSplit sep l₁ ++ chSplit sep l₂ := by
  induction l₁ with
  | nil =>
    rw [List.nil_append, chSplit_cons_eq, if_pos rfl]
    rfl
  | cons c cs ih =>
    rw [List.cons_append, chSplit_cons_eq, chSplit_cons_eq sep c, ih]
    cases h : chSplit sep cs with
    | nil => exact absurd h (chSplit_ne_nil _ _)
    | cons a t => by_cases hc : c = sep <;> simp [hc]

theorem chSplit_no_sep (sep : Char) (l : List Char) : ∀ p ∈ chSplit sep l, sep ∉ p := by
  induction l with
  | nil =>
    intro p hp
    have : p = [] := by simpa [chSplit] using hp
    subst this; simp
  | cons c cs ih =>
    intro p hp
    rw [chSplit_cons_eq] at hp
    by_cases hc : c = sep
    · rw [if_pos hc] at hp
      rcases List.mem_cons.mp hp with rfl | hp
      · simp
      · exact ih p hp
    · rw [if_neg hc] at hp
      cases h : chSplit sep cs with
      | nil => exact absurd h (chSplit_ne_nil _ _)
      | cons a t =>
        rw [h] at hp
        rcases List.mem_cons.mp hp with rfl | hp
        · intro hmem
          rcases List.mem_cons.mp hmem with h1 | h1
          · exact hc h1.symm
          · exact ih a (h ▸ List.mem_cons_self a t) (by simpa using h1)
        · exact ih p (h ▸ List.mem_cons_of_mem a (by simpa using hp))

theorem chSplit_of_no_sep (sep : Char) (l : List Char) (h : sep ∉ l) :
    chSplit sep l = [l] := by
  induction l with
  | nil => rfl
  | cons c cs ih =>
    have hc : c ≠ sep := fun hh => h (hh ▸ List.mem_cons_self c cs)
    rw [chSplit_cons_eq, if_neg hc, ih (fun hh => h (List.mem_cons_of_mem c hh))]
    rfl

theorem dcomps_nil : dcomps [] = [] := rfl

theorem dcomps_append_sep (l₁ l₂ : List Char) :
    dcomps (l₁ ++ '/' :: l₂) = dcomps l₁ ++ dcomps l₂ := by
  unfold dcomps
  rw [chSplit_append_sep, List.map_append, List.filter_append]

theorem dcomps_concat_sep (l : List Char) : dcomps (l ++ ['/']) = dcomps l := by
  have h := dcomps_append_sep l []
  rw [dcomps_nil, List.append_nil] at h
  exact h

theorem pcomps_empty : pcomps "" = [] := by decide

theorem empty_append_str (b : String) : "" ++ b = b := by
  apply String.ext
  rw [String.data_append]
  have h : ("" : String).data = [] := by decide
  rw [h, List.nil_append]

theorem pyStartsWith_slash_head (s : String) (c : Char) (t : List Char)
    (h : s.data = c :: t) : pyStartsWith s "/" = ('/' == c) := by
  have hd : ("/" : String).data = ['/'] := by decide
  unfold pyStartsWith
  rw [hd, h, List.isPrefixOf_cons₂]
  simp

theorem pyEndsWith_slash_iff (s : String) :
    pyEndsWith s "/" = true ↔ ∃ t, s.data = t ++ ['/'] := by
  have hd : ("/" : String).data = ['/'] := by decide
  unfold pyEndsWith
  rw [hd]
  constructor
  · intro h
    rcases List.isSuffixOf_iff_suffix.mp h with ⟨t, ht⟩
    exact ⟨t, ht.symm⟩
  · intro ⟨t, ht⟩
    exact List.isSuffixOf_iff_suffix.mpr ⟨t, ht.symm⟩

theorem pcomps_joinPath (a b : String) (hb : pyStartsWith b "/" = false) :
    pcomps (joinPath a b) = pcomps a ++ pcomps b := by
  unfold joinPath
  rw [if_neg (by simp [hb])]
  by_cases ha : a = ""
  · subst ha
    rw [if_pos (Or.inl rfl), empty_append_str, pcomps_empty, List.nil_append]
  · by_cases h2 : pyEndsWith a "/" = true
    · rw [if_pos (Or.inr h2)]
      rcases (pyEndsWith_slash_iff a).mp h2 with ⟨t, ht⟩
      show dcomps (a ++ b).data = dcomps a.data ++ dcomps b.data
      rw [String.data_append, ht, List.append_assoc, List.singleton_append,
        dcomps_append_sep, dcomps_concat_sep]
    · rw [if_neg (by simp [ha, h2])]
      show dcomps (a ++ "/" ++ b).data = dcomps a.data ++ dcomps b.data
      rw [String.data_append, String.data_append]
      have hd : ("/" : String).data = ['/'] := by decide
      rw [hd, List.append_assoc, List.singleton_append, dcomps_append_sep]

theorem pyStartsWith_joinPath (a b : String) (hb : pyStartsWith b "/" = false)
    (ha : a ≠ "") : pyStartsWith (joinPath a b) "/" = pyStartsWith a "/" := by
  obtain ⟨c, t, hct⟩ : ∃ c t, a.data = c :: t := by
    cases h : a.data with
    | nil => exact absurd ((str_eq_empty_iff a).mpr h) ha
    | cons c t => exact ⟨c, t, rfl⟩
  unfold joinPath
  rw [if_neg (by simp [hb])]
  by_cases h2 : a = "" ∨ pyEndsWith a "/" = true
  · rw [if_pos h2]
    rw [pyStartsWith_slash_head (a ++ b) c (t ++ b.data)
        (by rw [String.data_append, hct]; rfl),
      pyStartsWith_slash_head a c t hct]
  · rw [if_neg h2]
    rw [pyStartsWith_slash_head (a ++ "/" ++ b) c (t ++ ('/' :: b.data))
        (by
          rw [String.data_append, String.data_append, hct]
          have hd : ("/" : String).data = ['/'] := by decide
          rw [hd]
          simp),
      pyStartsWith_slash_head a c t hct]

theorem absComps_eq (cwd p : String) :
    absComps cwd p = (pcomps p).foldl normStep
      (if pyStartsWith p "/" then [] else normAbsComps (pcomps cwd)) := by
  unfold absComps normAbsComps
  by_cases h : pyStartsWith p "/" = true
  · rw [if_pos h, if_pos h]
  · rw [if_neg h, if_neg h, List.foldl_append]

theorem absComps_empty (cwd : String) : absComps cwd "" = normAbsComps (pcomps cwd) := by
  unfold absComps
  rw [if_neg (by decide), pcomps_empty, List.append_nil]

theorem absComps_joinPath (cwd a b : String) (hb : pyStartsWith b "/" = false) :
    absComps cwd (joinPath a b) = (pcomps b).foldl normStep (absComps cwd a) := by
  by_cases ha : a = ""
  · subst ha
    have hj : joinPath "" b = b := by
      unfold joinPath
      rw [if_neg (by simp [hb]), if_pos (Or.inl rfl)]
      exact empty_append_str b
    rw [hj, absComps_eq cwd b, if_neg (by simp [hb]), absComps_empty]
  · rw [absComps_eq cwd (joinPath a b), pcomps_joinPath a b hb,
      pyStartsWith_joinPath a b hb ha, List.foldl_append, ← absComps_eq cwd a]

theorem foldl_normStep_clean (cs : List String) (acc : List String)
    (h : ∀ c ∈ cs, c ≠ "" ∧ c ≠ "." ∧ c ≠ "..") :
    cs.foldl normStep acc = acc ++ cs := by
  induction cs generalizing acc with
  | nil => simp
  | cons c cs ih =>
    have hc := h c (List.mem_cons_self c cs)
    rw [List.foldl_cons,
      show normStep acc c = acc ++ [c] from by
        unfold normStep
        rw [if_neg (by simp [hc.1, hc.2.1]), if_neg hc.2.2],
      ih _ (fun x hx => h x (List.mem_cons_of_mem c hx))]
    simp

theorem foldl_normStep_replicate (k : Nat) (acc : List String) :
    (List.replicate k "..").foldl normStep acc = acc.take (acc.length - k) := by
  induction k generalizing acc with
  | zero => simp
  | succ k ih =>
    rw [List.replicate_succ, List.foldl_cons,
      show normStep acc ".." = acc.dropLast from by
        unfold normStep
        rw [if_neg (by decide), if_pos rfl],
      ih]
    rw [List.dropLast_eq_take, List.take_take, List.length_take]
    congr 1
    omega

theorem mem_foldl_normStep (cs : List String) (acc : List String)
    (hacc : ∀ c ∈ acc, CleanComp c) (hcs : ∀ c ∈ cs, '/' ∉ c.data) :
    ∀ x ∈ cs.foldl normStep acc, CleanComp x := by
  induction cs generalizing acc with
  | nil => simpa using hacc
  | cons c cs ih =>
    rw [List.foldl_cons]
    apply ih
    · intro x hx
      unfold normStep at hx
      by_cases h1 : c = "" ∨ c = "."
      · rw [if_pos h1] at hx
        exact hacc x hx
      · rw [if_neg h1] at hx
        by_cases h2 : c = ".."
        · rw [if_pos h2] at hx
          exact hacc x (List.dropLast_subset _ hx)
        · rw [if_neg h2] at hx
          rcases List.mem_append.mp hx with h | h
          · exact hacc x h
          · have hxc : x = c := by simpa using h
            subst hxc
            exact ⟨fun hh => h1 (Or.inl hh), fun hh => h1 (Or.inr hh), h2,
              hcs x (List.mem_cons_self x cs)⟩
    · exact fun x hx => hcs x (List.mem_cons_of_mem c hx)

theorem pcomps_mem (s : String) : ∀ c ∈ pcomps s, c ≠ "" ∧ '/' ∉ c.data := by
  intro c hc
  unfold pcomps dcomps at hc
  rcases List.mem_filter.mp hc with ⟨hmem, hne⟩
  rcases List.mem_map.mp hmem with ⟨p, hp, rfl⟩
  exact ⟨by simpa using hne, chSplit_no_sep '/' s.data p hp⟩

theorem absComps_clean (cwd p : String) : ∀ c ∈ absComps cwd p, CleanComp c := by
  unfold absComps normAbsComps
  refine mem_foldl_normStep _ [] (by simp) ?_
  intro x hx
  by_cases h : pyStartsWith p "/" = true
  · rw [if_pos h] at hx
    exact (pcomps_mem p x hx).2
  · rw [if_neg h] at hx
    rcases List.mem_append.mp hx with h1 | h1
    · exact (pcomps_mem cwd x h1).2
    · exact (pcomps_mem p x h1).2

theorem pcomps_single (s : String) (hne : s ≠ "") (hns : '/' ∉ s.data) :
    pcomps s = [s] := by
  unfold pcomps dcomps
  rw [chSplit_of_no_sep '/' s.data hns]
  simp [hne]

theorem pyStartsWith_of_clean (f : String) (hne : f ≠ "") (hns : '/' ∉ f.data) :
    pyStartsWith f "/" = false := by
  obtain ⟨c, t, hct⟩ : ∃ c t, f.data = c :: t := by
    cases h : f.data with
    | nil => exact absurd ((str_eq_empty_iff f).mpr h) hne
    | cons c t => exact ⟨c, t, rfl⟩
  rw [pyStartsWith_slash_head f c t hct]
  have : c ≠ '/' := fun hh => hns (hct ▸ (hh ▸ List.mem_cons_self c t))
  simpa using fun hh => this hh.symm

theorem absComps_join_single (cwd a f : String) (hne : f ≠ "") (hd : f ≠ ".")
    (hdd : f ≠ "..") (hns : '/' ∉ f.data) :
    absComps cwd (joinPath a f) = absComps cwd a ++ [f] := by
  rw [absComps_joinPath cwd a f (pyStartsWith_of_clean f hne hns),
    pcomps_single f hne hns, List.foldl_cons]
  show normStep (absComps cwd a) f = _
  unfold normStep
  rw [if_neg (by simp [hne, hd]), if_neg hdd]

theorem absComps_join_pardir (cwd a : String) :
    absComps cwd (joinPath a "..") = (absComps cwd a).dropLast := by
  rw [absComps_joinPath cwd a ".." (by decide),
    show pcomps ".." = [".."] from by decide, List.foldl_cons]
  show normStep (absComps cwd a) ".." = _
  unfold normStep
  rw [if_neg (by decide), if_pos rfl]

theorem cpl_le_left (a b : List String) : commonPrefixLen a b ≤ a.length := by
  induction a generalizing b with
  | nil => simp [commonPrefixLen]
  | cons x xs ih =>
    cases b with
    | nil => simp [commonPrefixLen]
    | cons y ys =>
      unfold commonPrefixLen
      by_cases h : x = y
      · rw [if_pos h]
        simpa using Nat.succ_le_succ (ih ys)
      · rw [if_neg h]
        simp

theorem cpl_le_right (a b : List String) : commonPrefixLen a b ≤ b.length := by
  induction a generalizing b with
  | nil => simp [commonPrefixLen]
  | cons x xs ih =>
    cases b with
    | nil => simp [commonPrefixLen]
    | cons y ys =>
      unfold commonPrefixLen
      by_cases h : x = y
      · rw [if_pos h]
        simpa using Nat.succ_le_succ (ih ys)
      · rw [if_neg h]
        simp

theorem cpl_take (a b : List String) :
    a.take (commonPrefixLen a b) = b.take (commonPrefixLen a b) := by
  induction a generalizing b with
  | nil => simp [commonPrefixLen]
  | cons x xs ih =>
    cases b with
    | nil => simp [commonPrefixLen]
    | cons y ys =>
      unfold commonPrefixLen
      by_cases h : x = y
      · rw [if_pos h]
        simp only [List.take_succ_cons]
        rw [h, ih ys]
      · rw [if_neg h]
        simp

theorem pyEndsWith_of_clean (x : String) (_hne : x ≠ "") (hns : '/' ∉ x.data) :
    pyEndsWith x "/" = false := by
  cases hb : pyEndsWith x "/"
  · rfl
  · exfalso
    rcases (pyEndsWith_slash_iff x).mp hb with ⟨t, ht⟩
    exact hns (ht ▸ List.mem_append_right t (List.mem_singleton_self '/'))

theorem pyEndsWith_append_clean (s x : String) (hx : x ≠ "") (hns : '/' ∉ x.data) :
    pyEndsWith (s ++ x) "/" = false := by
  cases hb : pyEndsWith (s ++ x) "/"
  · rfl
  · exfalso
    rcases (pyEndsWith_slash_iff _).mp hb with ⟨t, ht⟩
    rw [String.data_append] at ht
    have hxd : x.data ≠ [] := fun hh => hx ((str_eq_empty_iff x).mpr hh)
    have h1 : (s.data ++ x.data).getLast? = x.data.getLast? :=
      List.getLast?_append_of_ne_nil _ hxd
    have h2 : (s.data ++ x.data).getLast? = some '/' := by
      rw [ht]
      exact List.getLast?_concat t
    rw [h1, List.getLast?_eq_getLast x.data hxd] at h2
    have h4 : x.data.getLast hxd = '/' := Option.some.inj h2
    exact hns (h4 ▸ List.getLast_mem hxd)

theorem foldl_joinPath_pcomps (t : List String) (a : String)
    (ha : a ≠ "") (hae : pyEndsWith a "/" = false)
    (ht : ∀ x ∈ t, x ≠ "" ∧ '/' ∉ x.data) :
    pcomps (t.foldl joinPath a) = pcomps a ++ t ∧
    t.foldl joinPath a ≠ "" ∧
    pyEndsWith (t.foldl joinPath a) "/" = false ∧
    pyStartsWith (t.foldl joinPath a) "/" = pyStartsWith a "/" := by
  induction t generalizing a with
  | nil => exact ⟨by simp, ha, hae, rfl⟩
  | cons x t ih =>
    have hx := ht x (List.mem_cons_self x t)
    have hxs : pyStartsWith x "/" = false := pyStartsWith_of_clean x hx.1 hx.2
    have hj : joinPath a x = a ++ "/" ++ x := by
      unfold joinPath
      rw [if_neg (by simp [hxs]), if_neg (by simp [ha, hae])]
    have h1 : pcomps (joinPath a x) = pcomps a ++ [x] := by
      rw [pcomps_joinPath a x hxs, pcomps_single x hx.1 hx.2]
    have h2 : joinPath a x ≠ "" := by
      intro hh
      rw [hh, pcomps_empty] at h1
      exact absurd h1.symm (by simp)
    have h3 : pyEndsWith (joinPath a x) "/" = false := by
      rw [hj]
      exact pyEndsWith_append_clean (a ++ "/") x hx.1 hx.2
    have h4 : pyStartsWith (joinPath a x) "/" = pyStartsWith a "/" :=
      pyStartsWith_joinPath a x hxs ha
    rw [List.foldl_cons]
    obtain ⟨ih1, ih2, ih3, ih4⟩ :=
      ih (joinPath a x) h2 h3 (fun y hy => ht y (List.mem_cons_of_mem x hy))
    refine ⟨?_, ih2, ih3, by rw [ih4, h4]⟩
    rw [ih1, h1]
    simp

theorem relpath_not_abs (cwd p s : String) :
    pyStartsWith (relpath cwd p s) "/" = false := by
  unfold relpath
  by_cases h : List.replicate ((absComps cwd s).length -
      commonPrefixLen (absComps cwd s) (absComps cwd p)) ".." ++
      (absComps cwd p).drop (commonPrefixLen (absComps cwd s) (absComps cwd p)) = []
  · rw [if_pos h]
    decide
  · rw [if_neg h]
    obtain ⟨x, t, hxt⟩ : ∃ x t,
        List.replicate ((absComps cwd s).length -
          commonPrefixLen (absComps cwd s) (absComps cwd p)) ".." ++
          (absComps cwd p).drop (commonPrefixLen (absComps cwd s) (absComps cwd p)) =
          x :: t := by
      cases hc : List.replicate ((absComps cwd s).length -
          commonPrefixLen (absComps cwd s) (absComps cwd p)) ".." ++
          (absComps cwd p).drop (commonPrefixLen (absComps cwd s) (absComps cwd p)) with
      | nil => exact absurd hc h
      | cons x t => exact ⟨x, t, rfl⟩
    have hcl : ∀ y ∈ (x :: t), y ≠ "" ∧ '/' ∉ y.data := by
      intro y hy
      rcases List.mem_append.mp (hxt ▸ hy) with h1 | h1
      · have hy2 : y = ".." := List.eq_of_mem_replicate h1
        subst hy2
        exact ⟨by decide, by decide⟩
      · have hy2 : y ∈ absComps cwd p := List.drop_subset _ _ h1
        have hy3 := absComps_clean cwd p y hy2
        exact ⟨hy3.1, hy3.2.2.2⟩
    have hx := hcl x (List.mem_cons_self x t)
    rw [hxt]
    obtain ⟨-, -, -, h4⟩ := foldl_joinPath_pcomps t x hx.1
      (pyEndsWith_of_clean x hx.1 hx.2) (fun y hy => hcl y (List.mem_cons_of_mem x hy))
    rw [show joinStar (x :: t) = t.foldl joinPath x from rfl, h4,
      pyStartsWith_of_clean x hx.1 hx.2]

theorem relpath_roundtrip_comps (cwd p s : String) :
    (pcomps (relpath cwd p s)).foldl normStep (absComps cwd s) = absComps cwd p := by
  unfold relpath
  by_cases h : List.replicate ((absComps cwd s).length -
      commonPrefixLen (absComps cwd s) (absComps cwd p)) ".." ++
      (absComps cwd p).drop (commonPrefixLen (absComps cwd s) (absComps cwd p)) = []
  · rw [if_pos h]
    rw [show pcomps "." = ["."] from by decide, List.foldl_cons,
      show ∀ acc, normStep acc "." = acc from fun acc => by
        unfold normStep
        rw [if_pos (Or.inr rfl)],
      List.foldl_nil]
    rcases List.append_eq_nil.mp h with ⟨h1, h2⟩
    have h3 : (absComps cwd s).length -
        commonPrefixLen (absComps cwd s) (absComps cwd p) = 0 := by
      have := congrArg List.length h1
      simpa using this
    have h4 : commonPrefixLen (absComps cwd s) (absComps cwd p) =
        (absComps cwd s).length :=
      Nat.le_antisymm (cpl_le_left _ _) (Nat.le_of_sub_eq_zero h3)
    have h5 : commonPrefixLen (absComps cwd s) (absComps cwd p) =
        (absComps cwd p).length :=
      Nat.le_antisymm (cpl_le_right _ _) (List.drop_eq_nil_iff.mp h2)
    have h6 := cpl_take (absComps cwd s) (absComps cwd p)
    rw [h4] at h6
    rw [List.take_length] at h6
    rw [h6, ← h4, h5, List.take_length]
  · rw [if_neg h]
    obtain ⟨x, t, hxt⟩ : ∃ x t,
        List.replicate ((absComps cwd s).length -
          commonPrefixLen (absComps cwd s) (absComps cwd p)) ".." ++
          (absComps cwd p).drop (commonPrefixLen (absComps cwd s) (absComps cwd p)) =
          x :: t := by
      cases hc : List.replicate ((absComps cwd s).length -
          commonPrefixLen (absComps cwd s) (absComps cwd p)) ".." ++
          (absComps cwd p).drop (commonPrefixLen (absComps cwd s) (absComps cwd p)) with
      | nil => exact absurd hc h
      | cons x t => exact ⟨x, t, rfl⟩
    have hcl : ∀ y ∈ (x :: t), y ≠ "" ∧ '/' ∉ y.data := by
      intro y hy
      rcases List.mem_append.mp (hxt ▸ hy) with h1 | h1
      · have hy2 : y = ".." := List.eq_of_mem_replicate h1
        subst hy2
        exact ⟨by decide, by decide⟩
      · have hy2 : y ∈ absComps cwd p := List.drop_subset _ _ h1
        have hy3 := absComps_clean cwd p y hy2
        exact ⟨hy3.1, hy3.2.2.2⟩
    have hx := hcl x (List.mem_cons_self x t)
    rw [hxt]
    obtain ⟨h1, -, -, -⟩ := foldl_joinPath_pcomps t x hx.1
      (pyEndsWith_of_clean x hx.1 hx.2) (fun y hy => hcl y (List.mem_cons_of_mem x hy))
    rw [show joinStar (x :: t) = t.foldl joinPath x from rfl, h1,
      pcomps_single x hx.1 hx.2, List.singleton_append, ← hxt]
    rw [List.foldl_append, foldl_normStep_replicate]
    have hile : commonPrefixLen (absComps cwd s) (absComps cwd p) ≤
        (absComps cwd s).length := cpl_le_left _ _
    rw [Nat.sub_sub_self hile]
    rw [foldl_normStep_clean _ _ (fun c hc => by
      have hcp := absComps_clean cwd p c (List.drop_subset _ _ hc)
      exact ⟨hcp.1, hcp.2.1, hcp.2.2.1⟩)]
    rw [cpl_take (absComps cwd s) (absComps cwd p)]
    exact List.take_append_drop _ _

theorem relpath_congr (cwd p₁ p₂ s : String) (h : absComps cwd p₁ = absComps cwd p₂) :
    relpath cwd p₁ s = relpath cwd p₂ s := by
  unfold relpath
  rw [h]

/-- Claim C8: Local-mode path resolution is idempotent: resolving a link from
the start (output) location and then resolving the result again from that
location returns the same value, for every working directory, start location
and link. -/
theorem local_resolve_idempotent (cwd start x : String) :
    resolveLocalFrom cwd start (resolveLocalFrom cwd start x) =
      resolveLocalFrom cwd start x := by
  have hkey : absComps cwd (joinPath start (relpath cwd (joinPath start x) start)) =
      absComps cwd (joinPath start x) := by
    rw [absComps_joinPath cwd start _ (relpath_not_abs cwd (joinPath start x) start)]
    exact relpath_roundtrip_comps cwd (joinPath start x) start
  unfold resolveLocalFrom
  exact relpath_congr cwd _ _ start hkey

theorem pybasename_no_slash (p : String) : '/' ∉ (pybasename p).data := by
  show '/' ∉ (chSplit '/' p.data).getLastD []
  have h := List.getLastD_mem_cons (chSplit '/' p.data) []
  rcases List.mem_cons.mp h with h1 | h1
  · rw [h1]
    simp
  · exact chSplit_no_sep '/' p.data _ h1

theorem md_suffix_clean (b : String) (hb : '/' ∉ b.data) : CleanComp (b ++ ".md") := by
  have hd : (".md" : String).data = ['.', 'm', 'd'] := by decide
  have hdata : (b ++ ".md").data = b.data ++ ['.', 'm', 'd'] := by
    rw [String.data_append, hd]
  have hlen : (b ++ ".md").data.length = b.data.length + 3 := by
    rw [hdata]
    simp
  refine ⟨?_, ?_, ?_, ?_⟩
  · intro h
    rw [h] at hlen
    have h1 : ("" : String).data.length = 0 := by decide
    rw [h1] at hlen
    omega
  · intro h
    rw [h] at hlen
    have h1 : ("." : String).data.length = 1 := by decide
    rw [h1] at hlen
    omega
  · intro h
    rw [h] at hlen
    have h1 : (".." : String).data.length = 2 := by decide
    rw [h1] at hlen
    omega
  · rw [hdata]
    intro h
    rcases List.mem_append.mp h with h1 | h1
    · exact hb h1
    · simp at h1

/-- Claim C1: for a directory `D = join(trim(root), trim(path))` with base
name `b`, `Breadcrumb._get_crumb` checks exactly the candidates `D/b.md`,
then `D/index.md`, then `parent(D)/b.md` — shown by computing each
candidate's normalized absolute components: the first two live in `D`
(components `AD`), the third in `D`'s parent (components `AD.dropLast`) —
and returns the formatted first candidate that exists, or `none`; in
particular the same-name file wins over `index.md`, and the parent-level
file is used only when both in-directory candidates are absent. -/
theorem crumb_lookup_order (fs : List (List String)) (cwd root path webroot : String)
    (start : Option String) (is_local : Bool) (D : String) (AD : List String)
    (b : String) (hD : D = joinPath (slash_trim root) (slash_trim path))
    (hAD : AD = absComps cwd D) (hb : b = pybasename D) :
    absComps cwd (joinPath D (b ++ ".md")) = AD ++ [b ++ ".md"] ∧
    absComps cwd (joinPath D "index.md") = AD ++ ["index.md"] ∧
    absComps cwd (joinPath (joinPath "." (relpath cwd (joinPath D "..") "."))
      (b ++ ".md")) = AD.dropLast ++ [b ++ ".md"] ∧
    getCrumb fs cwd path root none start is_local webroot =
      (if AD ++ [b ++ ".md"] ∈ fs then
        some (formatCrumb cwd (slash_trim root) webroot start is_local
          (slash_trim root).length (joinPath D (b ++ ".md")))
      else if AD ++ ["index.md"] ∈ fs then
        some (formatCrumb cwd (slash_trim root) webroot start is_local
          (slash_trim root).length (joinPath D "index.md"))
      else if AD.dropLast ++ [b ++ ".md"] ∈ fs then
        some (formatCrumb cwd (slash_trim root) webroot start is_local
          ((slash_trim root).length + 1)
          (joinPath (joinPath "." (relpath cwd (joinPath D "..") ".")) (b ++ ".md")))
      else none) := by
  have hcl : CleanComp (b ++ ".md") := by
    rw [hb]
    exact md_suffix_clean (pybasename D) (pybasename_no_slash D)
  have h1 : absComps cwd (joinPath D (b ++ ".md")) = AD ++ [b ++ ".md"] := by
    rw [hAD]
    exact absComps_join_single cwd D _ hcl.1 hcl.2.1 hcl.2.2.1 hcl.2.2.2
  have h2 : absComps cwd (joinPath D "index.md") = AD ++ ["index.md"] := by
    rw [hAD]
    exact absComps_join_single cwd D "index.md" (by decide) (by decide)
      (by decide) (by decide)
  have h3 : absComps cwd (joinPath (joinPath "." (relpath cwd (joinPath D "..") "."))
      (b ++ ".md")) = AD.dropLast ++ [b ++ ".md"] := by
    rw [hAD, absComps_join_single cwd _ _ hcl.1 hcl.2.1 hcl.2.2.1 hcl.2.2.2,
      absComps_joinPath cwd "." _ (relpath_not_abs cwd (joinPath D "..") "."),
      relpath_roundtrip_comps cwd (joinPath D "..") ".",
      absComps_join_pardir cwd D]
  refine ⟨h1, h2, h3, ?_⟩
  simp only [getCrumb, pathExists]
  rw [← hD, ← hb]
  simp only [h1, h2, h3]

/-- Witness for `crumb_lookup_order` at a concrete tree: root `site`
containing `site/a/a.md`, target directory `a`, local mode without a start
path; the same-name candidate exists and the returned crumb is the slice
`crumb_path[len(root):]`. -/
theorem crumb_lookup_order_witness :
    getCrumb [["c", "site", "a", "a.md"]] "/c" "a" "site" none none true "" =
      some "/a/a.md" := by
  have h := (crumb_lookup_order [["c", "site", "a", "a.md"]] "/c" "site" "a" ""
    none true (joinPath (slash_trim "site") (slash_trim "a"))
    (absComps "/c" (joinPath (slash_trim "site") (slash_trim "a")))
    (pybasename (joinPath (slash_trim "site") (slash_trim "a"))) rfl rfl rfl).2.2.2
  rw [h]
  decide

theorem fixLinksAux_err_of_mem (is_local : Bool) (cwd path root webroot : String)
    (anchors : List Anchor) (h : (⟨none, none⟩ : Anchor) ∈ anchors) :
    ∀ st, (fixLinksAux is_local cwd path root webroot st anchors).isOk = false := by
  induction anchors with
  | nil => simp at h
  | cons a rest ih =>
    intro st
    rcases List.mem_cons.mp h with rfl | hmem
    · simp [fixLinksAux, fixLink, pyTruthyOpt, Except.isOk, Except.toBool]
    · simp only [fixLinksAux]
      cases hf : fixLink is_local cwd path root webroot st a with
      | error e => simp [Except.isOk, Except.toBool]
      | ok p =>
        obtain ⟨a2, st2⟩ := p
        have h2 := ih hmem st2
        cases hr : fixLinksAux is_local cwd path root webroot st2 rest with
        | error e => simp [hr, Except.isOk, Except.toBool]
        | ok l =>
          rw [hr] at h2
          simp [Except.isOk, Except.toBool] at h2

/-- Claim C9: an anchor element carrying neither an `href` nor an
`xlink:href` attribute makes `fix_links` raise (the placeholder `re.match`
is applied to `None`) instead of skipping the anchor, so the whole call
fails and the driver's per-document error handler is reachable. -/
theorem fix_links_missing_href_raises (is_local : Bool)
    (cwd path root webroot : String) (anchors : List Anchor)
    (h : (⟨none, none⟩ : Anchor) ∈ anchors) :
    (fixLinks is_local cwd path root webroot anchors).isOk = false :=
  fixLinksAux_err_of_mem is_local cwd path root webroot anchors h false

/-- Witness for `fix_links_missing_href_raises`: a document whose second
anchor has no link attribute at all. -/
theorem fix_links_missing_href_raises_witness :
    (fixLinks true "/c" "" "" "" [⟨some "x.md", none⟩, ⟨none, none⟩]).isOk = false :=
  fix_links_missing_href_raises true "/c" "" "" ""
    [⟨some "x.md", none⟩, ⟨none, none⟩] (by decide)

/-- Claim C2 (evaluation of the code at the failing input): after an anchor
that only has `xlink:href`, the `is_xlink` flag — initialised once before
the loop and never reset — stays `True`, so the next anchor's href, although
read from its `href` attribute, is written to `xlink:href` while `href`
keeps its original `a.md` value: the value is not written back onto the
attribute it was read from. -/
theorem fix_links_writeback_wrong_attr :
    fixLinks true "/c" "" "" "" [⟨none, some "b.svg"⟩, ⟨some "a.md", none⟩] =
      Except.ok [⟨none, some "b.svg"⟩, ⟨some "a.md", some "a.html"⟩] := rfl

/-- Counterexample to claim C3 as stated: the renderer's image pass
(`fix_imgs`) performs no `.md` to `.html` extension rewrite at all — an image
src `a.md` is returned unchanged in local mode, not rewritten to `a.html`. -/
theorem md_rewrite_not_on_imgs :
    fixImgs true "/c" "p" "." "" ["a.md"] = ["a.md"] ∧
    fixImgs true "/c" "p" "." "" ["a.md"] ≠ ["a.html"] := by
  refine ⟨rfl, by decide⟩

theorem mdSubAux_ends_key : ∀ (n : Nat) (l pre : List Char), l.length ≤ n →
    l = pre ++ ['.', 'm', 'd'] →
    ∃ pre2, mdSubAux l = pre2 ++ ['.', 'h', 't', 'm', 'l'] := by
  intro n
  induction n with
  | zero =>
    intro l pre hl hp
    subst hp
    simp at hl
  | succ n ih =>
    intro l pre hl hp
    rw [mdSubAux.eq_def]
    split
    · exact ⟨[], rfl⟩
    · rename_i x c rest2
      split
      · rename_i hw
        cases pre with
        | nil =>
          have := congrArg List.length hp
          simp at this
        | cons p1 pre1 =>
          rw [List.cons_append] at hp
          injection hp with e1 hp
          cases pre1 with
          | nil =>
            injection hp with e2 _
            exact absurd e2 (by decide)
          | cons p2 pre2 =>
            rw [List.cons_append] at hp
            injection hp with e2 hp
            cases pre2 with
            | nil =>
              injection hp with e3 _
              exact absurd e3 (by decide)
            | cons p3 pre3 =>
              rw [List.cons_append] at hp
              injection hp with e3 hp
              cases pre3 with
              | nil =>
                injection hp with e4 _
                rw [e4] at hw
                exact absurd hw (by decide)
              | cons p4 pre4 =>
                rw [List.cons_append] at hp
                injection hp with e4 hp
                have hlen : rest2.length ≤ n := by
                  simp [List.length_cons] at hl
                  omega
                rcases ih rest2 pre4 hlen hp with ⟨q, hq⟩
                exact ⟨'.' :: 'm' :: 'd' :: c :: q, by rw [hq]; simp⟩
      · rename_i hw
        cases pre with
        | nil =>
          have := congrArg List.length hp
          simp at this
        | cons p1 pre1 =>
          rw [List.cons_append] at hp
          injection hp with e1 hp
          cases pre1 with
          | nil =>
            injection hp with e2 _
            exact absurd e2 (by decide)
          | cons p2 pre2 =>
            rw [List.cons_append] at hp
            injection hp with e2 hp
            cases pre2 with
            | nil =>
              injection hp with e3 _
              exact absurd e3 (by decide)
            | cons p3 pre3 =>
              rw [List.cons_append] at hp
              injection hp with e3 hp
              have hlen : (c :: rest2).length ≤ n := by
                simp [List.length_cons] at hl ⊢
                omega
              rcases ih (c :: rest2) pre3 hlen hp with ⟨q, hq⟩
              exact ⟨'.' :: 'h' :: 't' :: 'm' :: 'l' :: q, by rw [hq]; simp⟩
    · rename_i x c rest hn1 hn2
      cases pre with
      | nil =>
        rw [List.nil_append] at hp
        injection hp with e1 e2
        exact (hn1 e1 e2).elim
      | cons p1 pre1 =>
        rw [List.cons_append] at hp
        injection hp with e1 hp
        have hlen : rest.length ≤ n := by
          simp [List.length_cons] at hl
          omega
        rcases ih rest pre1 hlen hp with ⟨q, hq⟩
        exact ⟨c :: q, by rw [hq]; simp⟩
    · exact absurd hp.symm (by simp)

theorem mdSub_ends (s : String) (h : pyEndsWith s ".md" = true) :
    pyEndsWith (mdSub s) ".html" = true := by
  have hd : (".md" : String).data = ['.', 'm', 'd'] := by decide
  have hd2 : (".html" : String).data = ['.', 'h', 't', 'm', 'l'] := by decide
  unfold pyEndsWith at h ⊢
  rw [hd] at h
  rw [hd2]
  rcases List.isSuffixOf_iff_suffix.mp h with ⟨t, ht⟩
  rcases mdSubAux_ends_key s.data.length s.data t le_rfl ht.symm with ⟨q, hq⟩
  apply List.isSuffixOf_iff_suffix.mpr
  exact ⟨q, by rw [show (mdSub s).data = mdSubAux s.data from rfl, hq]⟩

/-- Claim C3 amended: for anchor hrefs the rewrite
`re.sub('\\.md(?:\\b|$)', '.html', href)` turns every href ending in `.md`
into one ending in `.html` (it also rewrites interior `.md` occurrences that
precede a non-word character, so a value need not end in `.md` to be
touched); image srcs are never extension-rewritten — `fix_imgs` returns
local-mode srcs unchanged and only URL-resolves them in web mode. -/
theorem md_rewrite_scope :
    (∀ s : String, pyEndsWith s ".md" = true → pyEndsWith (mdSub s) ".html" = true) ∧
    (∀ cwd path root webroot : String, ∀ imgs : List String,
      fixImgs true cwd path root webroot imgs = imgs) ∧
    (∀ cwd path root webroot : String, ∀ imgs : List String,
      fixImgs false cwd path root webroot imgs =
        imgs.map (fun src => get_url_path cwd src path root webroot)) := by
  refine ⟨mdSub_ends, ?_, ?_⟩
  · intro cwd path root webroot imgs
    simp [fixImgs]
  · intro cwd path root webroot imgs
    simp [fixImgs]

/-- Witness for `md_rewrite_scope`: the href `a.md` ends in `.md` and is
rewritten to end in `.html`. -/
theorem md_rewrite_scope_witness :
    pyEndsWith (mdSub "a.md") ".html" = true :=
  md_rewrite_scope.1 "a.md" (by decide)

theorem foldl_append_filter {α β : Type} (f : α → β) (p : β → Bool) :
    ∀ (l : List α) (acc : List β),
    l.foldl (fun crumbs i => if p (f i) then crumbs ++ [f i] else crumbs) acc =
      acc ++ ((l.map f).filter p) := by
  intro l
  induction l with
  | nil => intro acc; simp
  | cons x t ih =>
    intro acc
    rw [List.foldl_cons]
    by_cases h : p (f x) = true
    · rw [if_pos h, ih]
      simp [h]
    · rw [if_neg h, ih]
      simp [h]

theorem fmtCrumbTemplate_empty (a b : String) : fmtCrumbTemplate "" a b = "" := by
  apply String.ext
  show fmtScan ("" : String).data a.data b.data = ("" : String).data
  have h : ("" : String).data = [] := by decide
  rw [h]
  rfl

theorem str_length_pos_of_ne (s : String) (h : s ≠ "") : 0 < s.length := by
  show 0 < s.data.length
  apply List.length_pos.mpr
  exact fun hh => h ((str_eq_empty_iff s).mpr hh)

theorem mk_empty_template_not_exists (fs : List (List String)) (cwd : String)
    (root path text : String) (start : Option String) (loc : Bool) (wr : String) :
    (mkBreadcrumb fs cwd root path text "" start loc wr).crumbExists = false := by
  simp only [mkBreadcrumb]
  split
  · decide
  · simp [Breadcrumb.crumbExists, fmtCrumbTemplate_empty]

theorem mk_exists_imp_isSome (fs : List (List String)) (cwd : String)
    (root path text tmpl : String) (start : Option String) (loc : Bool) (wr : String)
    (h : (mkBreadcrumb fs cwd root path text tmpl start loc wr).crumbExists = true) :
    (mkBreadcrumb fs cwd root path text tmpl start loc wr).md_file.isSome = true := by
  revert h
  simp only [mkBreadcrumb]
  split
  · intro h
    exact absurd h (by decide)
  · intro h
    rfl

theorem mk_exists_eq_isSome (fs : List (List String)) (cwd : String)
    (root path text tmpl : String) (start : Option String) (loc : Bool) (wr : String)
    (hfmt : ∀ hf tx : String, fmtCrumbTemplate tmpl hf tx ≠ "") :
    (mkBreadcrumb fs cwd root path text tmpl start loc wr).crumbExists =
      (mkBreadcrumb fs cwd root path text tmpl start loc wr).md_file.isSome := by
  simp only [mkBreadcrumb]
  split
  · decide
  · show Breadcrumb.crumbExists _ = Option.isSome (some _)
    simp only [Breadcrumb.crumbExists, Option.isSome]
    rw [decide_eq_true (str_length_pos_of_ne _ (hfmt _ _))]

/-- Claim C5: for a non-empty target path, `get_breadcrumbs` evaluates the
index lookup independently for every prefix `i = 0 .. len(parts)` and returns
exactly the ordered subsequence of those levels whose index resolved
(provided the breadcrumb template renders nonempty html, as the default
template does): a level with no index contributes nothing but does not stop
deeper levels. -/
theorem breadcrumbs_filter_resolved (fs : List (List String))
    (cwd root path start tmpl wr : String) (loc : Bool)
    (hne : String.join (pySplit (slash_trim path) '/') ≠ "")
    (hfmt : ∀ hf tx : String, fmtCrumbTemplate tmpl hf tx ≠ "") :
    get_breadcrumbs fs cwd root path start tmpl loc wr =
      ((List.range ((pySplit (slash_trim path) '/').length + 1)).map
        (fun i => mkBreadcrumb fs cwd root
          (if i = 0 then "" else joinStar ((pySplit (slash_trim path) '/').take i))
          "" tmpl (some start) loc wr)).filter
        (fun b => b.md_file.isSome) := by
  simp only [get_breadcrumbs]
  rw [if_pos hne,
    foldl_append_filter
      (fun i => mkBreadcrumb fs cwd root
        (if i = 0 then "" else joinStar ((pySplit (slash_trim path) '/').take i))
        "" tmpl (some start) loc wr)
      Breadcrumb.crumbExists,
    List.nil_append]
  apply List.filter_congr
  intro b hb
  rcases List.mem_map.mp hb with ⟨i, -, rfl⟩
  exact mk_exists_eq_isSome fs cwd root _ "" tmpl (some start) loc wr hfmt

theorem fmtT (a b : String) : fmtCrumbTemplate "T" a b = "T" := by
  apply String.ext
  show fmtScan ("T" : String).data a.data b.data = ("T" : String).data
  have h : ("T" : String).data = ['T'] := by decide
  rw [h]
  rfl

/-- Witness for `breadcrumbs_filter_resolved`: root `.` with `a/a.md`
existing; the sequence for target `a` is the single resolved crumb for level
`a` (the root level has no index and is skipped). -/
theorem breadcrumbs_filter_resolved_witness :
    get_breadcrumbs [["c", "a", "a.md"]] "/c" "." "a" "" "T" true "" =
      [⟨some "a", some "a/a.md", some "a/a.html", "A", "T"⟩] := by
  have h := breadcrumbs_filter_resolved [["c", "a", "a.md"]] "/c" "." "a" "" "T" ""
    true (by decide) (fun hf tx => by rw [fmtT hf tx]; decide)
  rw [h]
  decide

/-- Counterexample to claim C4 as stated: with an empty filesystem and the
root itself as target, `get_breadcrumbs` returns one Breadcrumb whose index
did NOT resolve (`md_file = none`, `exists()` false) — the root candidate is
included unconditionally, not only if it resolves. -/
theorem root_breadcrumb_included_unresolved :
    ∃ b : Breadcrumb, get_breadcrumbs [] "/c" "." "" "" "T" true "" = [b] ∧
      b.md_file = none ∧ b.crumbExists = false := by
  refine ⟨⟨none, none, none, "", ""⟩, by decide, rfl, rfl⟩

/-- Claim C4 amended: for the root target (empty relative path) exactly one
Breadcrumb candidate is produced and it is included unconditionally — even
when its index did not resolve; every Breadcrumb included for a non-empty
target path does have a resolved index reference. -/
theorem breadcrumbs_resolution_invariant :
    (∀ (fs : List (List String)) (cwd root start tmpl : String) (loc : Bool)
      (wr : String),
      (get_breadcrumbs fs cwd root "" start tmpl loc wr).length = 1) ∧
    (∀ (fs : List (List String)) (cwd root path start tmpl : String) (loc : Bool)
      (wr : String),
      String.join (pySplit (slash_trim path) '/') ≠ "" →
      ∀ b ∈ get_breadcrumbs fs cwd root path start tmpl loc wr,
        b.md_file.isSome = true) := by
  constructor
  · intro fs cwd root start tmpl loc wr
    simp only [get_breadcrumbs]
    rw [if_neg (by decide)]
    simp
  · intro fs cwd root path start tmpl loc wr hne b hb
    simp only [get_breadcrumbs] at hb
    rw [if_pos hne,
      foldl_append_filter
        (fun i => mkBreadcrumb fs cwd root
          (if i = 0 then "" else joinStar ((pySplit (slash_trim path) '/').take i))
          "" tmpl (some start) loc wr)
        Breadcrumb.crumbExists,
      List.nil_append] at hb
    rcases List.mem_filter.mp hb with ⟨hmem, hex⟩
    rcases List.mem_map.mp hmem with ⟨i, -, rfl⟩
    exact mk_exists_imp_isSome fs cwd root _ "" tmpl (some start) loc wr hex

/-- Witness for `breadcrumbs_resolution_invariant`: the root-target length,
and a resolved crumb of a non-root target. -/
theorem breadcrumbs_resolution_invariant_witness :
    (get_breadcrumbs [] "/c" "." "" "s" "T" true "").length = 1 ∧
    (⟨some "a", some "a/a.md", some "a/a.html", "A", "T"⟩ : Breadcrumb).md_file.isSome
      = true := by
  constructor
  · exact breadcrumbs_resolution_invariant.1 [] "/c" "." "s" "T" true ""
  · exact breadcrumbs_resolution_invariant.2 [["c", "a", "a.md"]] "/c" "." "a" ""
      "T" true "" (by decide) _ (by decide)

/-- Claim C10: a Breadcrumb constructed with an empty html template never
exists — the rendered html is empty even when an index document was located —
so `get_breadcrumbs` with an empty template drops every crumb of a non-root
target; and `exists()` returns true exactly when the rendered html string is
nonempty. -/
theorem exists_iff_html_nonempty :
    (∀ (fs : List (List String)) (cwd root path text : String)
      (start : Option String) (loc : Bool) (wr : String),
      (mkBreadcrumb fs cwd root path text "" start loc wr).crumbExists = false) ∧
    (∀ (fs : List (List String)) (cwd root path start : String) (loc : Bool)
      (wr : String),
      String.join (pySplit (slash_trim path) '/') ≠ "" →
      get_breadcrumbs fs cwd root path start "" loc wr = []) ∧
    (∀ b : Breadcrumb, b.crumbExists = true ↔ b.html ≠ "") := by
  refine ⟨fun fs cwd root path text start loc wr =>
    mk_empty_template_not_exists fs cwd root path text start loc wr, ?_, ?_⟩
  · intro fs cwd root path start loc wr hne
    simp only [get_breadcrumbs]
    rw [if_pos hne,
      foldl_append_filter
        (fun i => mkBreadcrumb fs cwd root
          (if i = 0 then "" else joinStar ((pySplit (slash_trim path) '/').take i))
          "" "" (some start) loc wr)
        Breadcrumb.crumbExists,
      List.nil_append]
    apply List.filter_eq_nil_iff.mpr
    intro b hb
    rcases List.mem_map.mp hb with ⟨i, -, rfl⟩
    rw [mk_empty_template_not_exists]
    simp
  · intro b
    constructor
    · intro h hempty
      rw [show b.crumbExists = decide (0 < b.html.length) from rfl, hempty] at h
      exact absurd h (by decide)
    · intro h
      exact decide_eq_true (str_length_pos_of_ne b.html h)

/-- Witness for `exists_iff_html_nonempty`: with an empty breadcrumb
template, the non-root target `a` yields no crumbs although `a/a.md`
resolves. -/
theorem exists_iff_html_nonempty_witness :
    get_breadcrumbs [["c", "a", "a.md"]] "/c" "." "a" "s" "" true "" = [] ∧
    (mkBreadcrumb [["c", "a", "a.md"]] "/c" "." "a" "" "" (some "s") true
      "").crumbExists = false := by
  constructor
  · exact exists_iff_html_nonempty.2.1 [["c", "a", "a.md"]] "/c" "." "a" "s"
      true "" (by decide)
  · exact exists_iff_html_nonempty.1 [["c", "a", "a.md"]] "/c" "." "a" ""
      (some "s") true ""

example : pcomps "a//b/" = ["a", "b"] := by decide
example : joinPath "a" "b" = "a/b" := by decide
example : joinPath "a/" "b" = "a/b" := by decide
example : joinPath "a" "/b" = "/b" := by decide
example : slash_trim "/a/b/" = "a/b" := by decide
example : slash_trim "//a//" = "/a/" := by decide
example : pybasename "a/b" = "b" := by decide
example : pybasename "a/" = "" := by decide
example : pybasename "." = "." := by decide
example : absComps "/c" "a/../b" = ["c", "b"] := by decide
example : absComps "/c" "/x/./y" = ["x", "y"] := by decide
example : relpath "/c" "a/b.md" "s" = "../a/b.md" := by decide
example : relpath "/c" "/c/a" "/c" = "a" := by decide
example : get_url_path "/c" "a.md" "p" "." "" = "/p/a.md" := by decide
example : get_url_path "/c" "file:///a.md" "" "." "w" = "/w/a.md" := by decide
